import Mathlib

/-!
Verification of the Time & Streak Engine of the day-tracker application
(src/src/App.tsx).

The JavaScript helper functions are shallowly embedded as Lean functions.
Conventions used throughout:

* JS strings are modelled as `String` / `List Char`; `String.split` with a
  one-character separator is modelled by `splitChar` (same semantics,
  including the empty-chunk behaviour of JS `split`).
* JS numbers that can be `NaN` are modelled as `Option Int` (`none` = `NaN`).
  `Number(s)` is modelled by `jsNumber`, which covers the empty string
  (`Number('') === 0`) and plain decimal-digit strings; other exotic numeric
  syntaxes (signs, floats, hex) do not occur in the inputs exercised here
  and are mapped to `NaN`.
* A JS `Date` produced by `parseTime` is modelled by `JSDate`: either
  `invalid` (an Invalid Date, i.e. `NaN` time value) or `valid k` where `k`
  is the minute-of-day offset `hours * 60 + minutes` that `setHours` gives
  relative to midnight of the ambient "today" (a fixed UTC-offset day is
  assumed, so `getTime` differences in minutes coincide with differences of
  these offsets).
* The ambient clock (`new Date()` for "today" in `calculateStreaks`, and
  `Date.now()` for activity ids) is passed as an explicit parameter.
* Calendar dates are mapped to epoch-day numbers (days since 1970-01-01)
  by `daysFromCivil`, the standard civil-from-days conversion, including
  the two-digit-year rule and month-overflow normalisation of `Date.UTC`.
-/

/-- JS `String.prototype.split` with a single-character separator, on the
underlying character list; e.g. `splitChar ':' "a:b" = ["a", "b"]`,
`splitChar ':' "" = [""]`, `splitChar ':' ":" = ["", ""]`. -/
def splitChar (sep : Char) : List Char → List (List Char)
  | [] => [[]]
  | c :: cs =>
    if c = sep then [] :: splitChar sep cs
    else
      match splitChar sep cs with
      | [] => [[c]]
      | h :: t => (c :: h) :: t

/-- Numeric value of a list of decimal digits, most significant first. -/
def digitsVal (l : List Char) : Nat :=
  l.foldl (fun a c => 10 * a + (c.toNat - 48)) 0

/-- JS `Number(s)` restricted to the string shapes that occur in this
program: `Number('') = 0`, a nonempty all-digit string is its decimal
value, anything else is `NaN` (`none`). -/
def jsNumber (l : List Char) : Option Int :=
  if l.isEmpty then some 0
  else if l.all (fun c => c.isDigit) then some (digitsVal l : Nat)
  else none

/-- Decimal digit characters of a natural number, fuel-based so that it is
structurally recursive (the fuel `n + 1` always suffices). -/
def digitsAux : Nat → Nat → List Char
  | 0, _ => []
  | fuel + 1, n =>
    if n < 10 then [Nat.digitChar n]
    else digitsAux fuel (n / 10) ++ [Nat.digitChar (n % 10)]

/-- JS `String(n)` for a non-negative integer `n`. -/
def natToDigits (n : Nat) : List Char := digitsAux (n + 1) n

/-- JS `String(n)` for an integer. -/
def intToChars (i : Int) : List Char :=
  if i < 0 then '-' :: natToDigits (-i).toNat else natToDigits i.toNat

/-- JS `s.padStart(2, '0')`. -/
def jsPadStart2 (l : List Char) : List Char :=
  if l.length < 2 then List.replicate (2 - l.length) '0' ++ l else l

/-- The two-character zero-padded decimal form of `n` (`String(n).padStart(2, '0')`). -/
def pad2 (n : Nat) : List Char := jsPadStart2 (natToDigits n)

/-- JS `parseInt(s, 10)` restricted to the shapes occurring here: the value
of the longest digit prefix, `NaN` (`none`) if there is none. -/
def jsParseInt (l : List Char) : Option Nat :=
  let ds := l.takeWhile Char.isDigit
  if ds.isEmpty then none else some (digitsVal ds)

/-- Whitespace as removed by JS `String.prototype.trim` (only the
characters that can actually occur in the strings built by this program). -/
def isWS (c : Char) : Bool := c = ' ' || c = '\t' || c = '\n' || c = '\r'

/-- JS `s.trim()`. -/
def jsTrim (l : List Char) : List Char :=
  ((l.dropWhile isWS).reverse.dropWhile isWS).reverse

section BasicLemmas

theorem splitChar_ne_nil (sep : Char) (l : List Char) : splitChar sep l ≠ [] := by
  induction l with
  | nil => simp [splitChar]
  | cons c cs ih =>
    simp only [splitChar]
    split
    · simp
    · split
      · simp
      · simp

theorem splitChar_of_not_mem {sep : Char} {l : List Char} (h : sep ∉ l) :
    splitChar sep l = [l] := by
  induction l with
  | nil => rfl
  | cons c cs ih =>
    simp only [List.mem_cons, not_or] at h
    simp only [splitChar]
    rw [if_neg (fun hc => h.1 hc.symm), ih h.2]

theorem splitChar_append {sep : Char} {l₁ : List Char} (l₂ : List Char)
    (h : sep ∉ l₁) : splitChar sep (l₁ ++ sep :: l₂) = l₁ :: splitChar sep l₂ := by
  induction l₁ with
  | nil => simp [splitChar]
  | cons c cs ih =>
    simp only [List.mem_cons, not_or] at h
    simp only [List.cons_append, splitChar]
    rw [if_neg (fun hc => h.1 hc.symm),
      show splitChar sep (cs.append (sep :: l₂)) = splitChar sep (cs ++ sep :: l₂) from rfl,
      ih h.2]

theorem digitChar_isDigit : ∀ d : Nat, d < 10 → (Nat.digitChar d).isDigit = true := by
  decide

theorem digitChar_toNat : ∀ d : Nat, d < 10 → (Nat.digitChar d).toNat - 48 = d := by
  decide

theorem digitsAux_congr : ∀ f₁ f₂ n : Nat, n < f₁ → n < f₂ →
    digitsAux f₁ n = digitsAux f₂ n := by
  intro f₁
  induction f₁ with
  | zero => omega
  | succ f ih =>
    intro f₂ n h1 h2
    match f₂, h2 with
    | f₂ + 1, h2 =>
      simp only [digitsAux]
      split
      · rfl
      · rename_i hn
        have hlt : n / 10 < n := Nat.div_lt_self (by omega) (by omega)
        rw [ih f₂ (n / 10) (by omega) (by omega)]

theorem natToDigits_eq (n : Nat) :
    natToDigits n = if n < 10 then [Nat.digitChar n]
      else natToDigits (n / 10) ++ [Nat.digitChar (n % 10)] := by
  unfold natToDigits
  conv_lhs => rw [digitsAux]
  split
  · rfl
  · rename_i hn
    have hlt : n / 10 < n := Nat.div_lt_self (by omega) (by omega)
    rw [digitsAux_congr n (n / 10 + 1) (n / 10) (by omega) (by omega)]

theorem natToDigits_ne_nil (n : Nat) : natToDigits n ≠ [] := by
  rw [natToDigits_eq]
  split <;> simp

theorem natToDigits_all_digit (n : Nat) :
    ∀ c ∈ natToDigits n, c.isDigit = true := by
  induction n using Nat.strong_induction_on with
  | _ n ih =>
    rw [natToDigits_eq]
    split
    · rename_i h
      intro c hc
      simp only [List.mem_singleton] at hc
      subst hc
      exact digitChar_isDigit n h
    · rename_i h
      intro c hc
      rw [List.mem_append] at hc
      rcases hc with hc | hc
      · exact ih (n / 10) (Nat.div_lt_self (by omega) (by omega)) c hc
      · simp only [List.mem_singleton] at hc
        subst hc
        exact digitChar_isDigit _ (Nat.mod_lt _ (by omega))

theorem digitsVal_append (l₁ l₂ : List Char) :
    digitsVal (l₁ ++ l₂) = l₂.foldl (fun a c => 10 * a + (c.toNat - 48)) (digitsVal l₁) := by
  simp [digitsVal, List.foldl_append]

theorem digitsVal_natToDigits (n : Nat) : digitsVal (natToDigits n) = n := by
  induction n using Nat.strong_induction_on with
  | _ n ih =>
    rw [natToDigits_eq]
    split
    · rename_i h
      simp [digitsVal, digitChar_toNat n h]
    · rename_i h
      rw [digitsVal_append, ih (n / 10) (Nat.div_lt_self (by omega) (by omega))]
      simp only [List.foldl_cons, List.foldl_nil]
      rw [digitChar_toNat _ (Nat.mod_lt _ (by omega))]
      omega

theorem jsNumber_natToDigits (n : Nat) : jsNumber (natToDigits n) = some (n : Int) := by
  unfold jsNumber
  rw [if_neg (by simpa using natToDigits_ne_nil n)]
  rw [if_pos (by simpa using natToDigits_all_digit n)]
  rw [digitsVal_natToDigits]

theorem digitsVal_replicate_zero_append (k : Nat) (l : List Char) :
    digitsVal (List.replicate k '0' ++ l) = digitsVal l := by
  induction k with
  | zero => simp
  | succ k ih =>
    simp only [List.replicate_succ, List.cons_append]
    show digitsVal ('0' :: (List.replicate k '0' ++ l)) = digitsVal l
    simp only [digitsVal, List.foldl_cons] at ih ⊢
    simpa using ih

theorem pad2_all_digit (n : Nat) : ∀ c ∈ pad2 n, c.isDigit = true := by
  unfold pad2 jsPadStart2
  split
  · intro c hc
    rw [List.mem_append] at hc
    rcases hc with hc | hc
    · rw [List.eq_of_mem_replicate hc]
      decide
    · exact natToDigits_all_digit n c hc
  · exact natToDigits_all_digit n

theorem pad2_ne_nil (n : Nat) : pad2 n ≠ [] := by
  unfold pad2 jsPadStart2
  split
  · rename_i h
    cases hn : natToDigits n with
    | nil => exact absurd hn (natToDigits_ne_nil n)
    | cons c cs => simp [hn]
  · exact natToDigits_ne_nil n

theorem digitsVal_pad2 (n : Nat) : digitsVal (pad2 n) = n := by
  unfold pad2 jsPadStart2
  split
  · rw [digitsVal_replicate_zero_append, digitsVal_natToDigits]
  · exact digitsVal_natToDigits n

theorem jsNumber_pad2 (n : Nat) : jsNumber (pad2 n) = some (n : Int) := by
  unfold jsNumber
  rw [if_neg (by simpa using pad2_ne_nil n)]
  rw [if_pos (by simpa using pad2_all_digit n)]
  rw [digitsVal_pad2]

theorem isDigit_not_sep {c : Char} (h : c.isDigit = true) :
    c ≠ ':' ∧ c ≠ ' ' ∧ c ≠ '-' ∧ isWS c = false := by
  refine ⟨?_, ?_, ?_, ?_⟩
  · rintro rfl; exact absurd h (by decide)
  · rintro rfl; exact absurd h (by decide)
  · rintro rfl; exact absurd h (by decide)
  · cases hw : isWS c with
    | false => rfl
    | true =>
      exfalso
      have hc : ((c = ' ' ∨ c = '\t') ∨ c = '\n') ∨ c = '\r' := by
        simpa [isWS] using hw
      rcases hc with ((rfl | rfl) | rfl) | rfl <;> exact absurd h (by decide)

end BasicLemmas

/-! ## The Time Engine (App.tsx lines 215-264) -/

/-- Result of `parseTime` when it returns a `Date`: either an Invalid Date
(`NaN` time value) or a valid one, represented by its minute-of-day offset
`hours * 60 + minutes` relative to midnight of the ambient day. -/
inductive JSDate where
  | invalid : JSDate
  | valid : Int → JSDate
deriving DecidableEq

/-- The PM adjustment `if (modifier === 'PM' && hours < 12) hours += 12`
on a possibly-`NaN` hour (`NaN < 12` is false, so `NaN` passes through). -/
def adjPM (h : Option Int) : Option Int :=
  match h with
  | some h => if h < 12 then some (h + 12) else some h
  | none => none

/-- The AM adjustment `if (modifier === 'AM' && hours === 12) hours = 0`
on a possibly-`NaN` hour. -/
def adjAM (h : Option Int) : Option Int :=
  match h with
  | some h => if h = 12 then some 0 else some h
  | none => none

/-- Core of `parseTime` on the character list of a non-null string. -/
def parseTimeL (l : List Char) : Option JSDate :=
  if l.isEmpty then none
  else
    let parts := splitChar ' ' l
    let time := parts.headD []
    let modifier := parts.get? 1
    let tparts := (splitChar ':' time).map jsNumber
    let hours0 := tparts.headD none
    let minutes := tparts.getD 1 none
    let hours1 := if modifier = some ['P', 'M'] then adjPM hours0 else hours0
    let hours2 := if modifier = some ['A', 'M'] then adjAM hours1 else hours1
    match hours2, minutes with
    | some h, some m => some (JSDate.valid (h * 60 + m))
    | _, _ => some JSDate.invalid

/-- `parseTime` (App.tsx line 215): `null`/empty input gives `null`; any
other string gives a `Date` object (possibly an Invalid Date). -/
def parseTime (timeString : Option String) : Option JSDate :=
  match timeString with
  | none => none
  | some s => parseTimeL s.data

/-- JS truthiness test `!s` for a nullable string. -/
def falsyS : Option String → Bool
  | none => true
  | some s => s.data.isEmpty

/-- `calculateDurationInMinutes` (App.tsx line 226). The result is a JS
number: `none` models `NaN` (which arises when a parsed date is invalid,
since `NaN < 0` is false and the `NaN` difference is returned as is). -/
def calculateDurationInMinutes (start e : Option String) : Option Int :=
  if falsyS start || falsyS e then some 0
  else
    match parseTime start, parseTime e with
    | some startDate, some endDate =>
      match startDate, endDate with
      | JSDate.valid a, JSDate.valid b =>
        let diff := b - a
        some (if diff < 0 then diff + 24 * 60 else diff)
      | _, _ => none
    | _, _ => some 0

/-- JS string of a nullable number (`NaN` prints as `"NaN"`). -/
def numToStr : Option Int → List Char
  | none => ['N', 'a', 'N']
  | some i => intToChars i

/-- Core of `formatTo12Hour` (App.tsx line 249) on the character list.
The minute component is kept as the original substring (the source
interpolates the split piece, not a reparsed number); a missing piece
interpolates as `"undefined"`. -/
def formatTo12HourL (l : List Char) : List Char :=
  let parts := splitChar ':' l
  let hoursS := parts.headD []
  let minutesS := (parts.get? 1).getD ['u', 'n', 'd', 'e', 'f', 'i', 'n', 'e', 'd']
  match jsParseInt hoursS with
  | none => natToDigits 12 ++ ':' :: minutesS ++ ' ' :: ['A', 'M']
  | some h =>
    let ampm := if 12 ≤ h then ['P', 'M'] else ['A', 'M']
    let formattedHours := if h % 12 = 0 then 12 else h % 12
    natToDigits formattedHours ++ ':' :: minutesS ++ ' ' :: ampm

/-- `formatTo12Hour` (App.tsx line 249). -/
def formatTo12Hour (time24 : String) : String :=
  ⟨formatTo12HourL time24.data⟩

/-- Core of `convertTo24Hour` (App.tsx line 257) on the character list. -/
def convertTo24HourL (l : List Char) : List Char :=
  let parts := splitChar ' ' l
  let time := parts.headD []
  let modifier := parts.get? 1
  let tparts := (splitChar ':' time).map jsNumber
  let hours0 := tparts.headD none
  let minutesU := tparts.get? 1
  let hours1 := if modifier = some ['P', 'M'] then adjPM hours0 else hours0
  let hours2 := if modifier = some ['A', 'M'] then adjAM hours1 else hours1
  jsPadStart2 (numToStr hours2) ++ ':' ::
    jsPadStart2 ((minutesU.map numToStr).getD ['u', 'n', 'd', 'e', 'f', 'i', 'n', 'e', 'd'])

/-- `convertTo24Hour` (App.tsx line 257): falsy input returns `''`. -/
def convertTo24Hour (time12 : Option String) : String :=
  match time12 with
  | none => ""
  | some s => if s.data.isEmpty then "" else ⟨convertTo24HourL s.data⟩

/-- JS truncation toward zero of a rational (`ToIntegerOrInfinity`). -/
def ratTrunc (q : ℚ) : Int := if 0 ≤ q then ⌊q⌋ else ⌈q⌉

/-- JS remainder `x % y` (sign of the dividend). -/
def jsMod (x y : ℚ) : ℚ := x - y * ratTrunc (x / y)

/-- JS `Math.round` (round half toward positive infinity). -/
def jsRound (q : ℚ) : Int := ⌊q + 1 / 2⌋

/-- `formatDuration` (App.tsx line 235). The argument is a JS number,
modelled as a rational since the callers can pass fractional minutes. -/
def formatDuration (minutes : ℚ) : String :=
  if minutes < 1 then "0m"
  else
    let hours : Int := ⌊minutes / 60⌋
    let mins : Int := jsRound (jsMod minutes 60)
    let d1 : List Char := if 0 < hours then intToChars hours ++ ['h', ' '] else []
    let d2 : List Char := if 0 < mins then d1 ++ intToChars mins ++ ['m'] else d1
    ⟨jsTrim d2⟩

/-- The canonical 12-hour clock string `"H:MM AM"` / `"H:MM PM"` for an
hour `h`, minute `m` and meridiem flag (`true` = PM): exactly the format
the application itself produces and the spec prescribes. -/
def mkTime12 (h m : Nat) (pm : Bool) : String :=
  ⟨natToDigits h ++ ':' :: pad2 m ++ ' ' :: (if pm then ['P', 'M'] else ['A', 'M'])⟩

/-- The canonical zero-padded 24-hour string `"HH:MM"`. -/
def mk24 (h m : Nat) : String := ⟨pad2 h ++ ':' :: pad2 m⟩

/-- Validity of a 12-hour clock pair per the spec: hour in [1,12], minute in [0,59]. -/
def Valid12 (h m : Nat) : Prop := 1 ≤ h ∧ h ≤ 12 ∧ m ≤ 59

/-- The 24-hour value of a 12-hour clock reading, as computed by the
engine's AM/PM adjustment. -/
def to24 (h : Nat) (pm : Bool) : Nat :=
  if pm then (if h < 12 then h + 12 else h) else (if h = 12 then 0 else h)

/-! ## The data model and the Streak Engine (App.tsx lines 6-17, 194-213) -/

/-- The `Activity` interface (App.tsx line 7). -/
structure Activity where
  id : Int
  task : String
  startTime : String
  endTime : Option String
deriving DecidableEq

/-- The `Day` interface (App.tsx line 14). -/
structure Day where
  date : String
  activities : List Activity
deriving DecidableEq

/-- The record returned by `calculateStreaks`. -/
structure StreakResult where
  currentStreak : Nat
  longestStreak : Nat
deriving DecidableEq

/-- Days since 1970-01-01 of the civil date `(y, m, d)` with month
`m ∈ [1,12]`; the formula is linear in `d`, so out-of-range days extend
exactly as JS `Date.UTC` does. Standard civil-from-days conversion. -/
def daysFromCivil (y m d : Int) : Int :=
  let y1 := if m ≤ 2 then y - 1 else y
  let era := y1.fdiv 400
  let yoe := y1 - era * 400
  let mp := (m + 9).emod 12
  let doy := (153 * mp + 2) / 5 + d - 1
  let doe := yoe * 365 + yoe / 4 - yoe / 100 + doy
  era * 146097 + doe - 719468

/-- Epoch-day value of `Date.UTC(year, monthIndex, day)` (month index
0-based, arbitrary overflow normalised, two-digit years mapped to 19xx). -/
def jsDateUTCdays (year monthIndex day : Int) : Int :=
  let y0 := if 0 ≤ year ∧ year ≤ 99 then 1900 + year else year
  let y := y0 + monthIndex.fdiv 12
  let m := monthIndex.emod 12 + 1
  daysFromCivil y m day

/-- The date extraction of `calculateStreaks` (App.tsx line 198):
`day.date.split('-').map(Number)` fed to `Date.UTC(y, m-1, d)`; `none`
models an Invalid Date (some component was missing or `NaN`), in epoch
days rather than milliseconds (all values are UTC midnights, so the
`/(1000*60*60*24)` gap arithmetic of the source becomes plain differences). -/
def dateValue (s : String) : Option Int :=
  let parts := (splitChar '-' s.data).map jsNumber
  match parts.getD 0 none, parts.getD 1 none, parts.getD 2 none with
  | some y, some mo, some d => some (jsDateUTCdays y (mo - 1) d)
  | _, _, _ => none

/-- Total version of `dateValue` used inside the embedded functions.
An Invalid Date (`NaN`) is given the junk value 0: the JS sort order and
gap arithmetic for `NaN` dates are engine-dependent, and every theorem
below restricts itself to well-formed dates through a `dateValue`-based
hypothesis, so the junk value is never relied upon. -/
def dateValueD (s : String) : Int := (dateValue s).getD 0

/-- The task filter of `calculateStreaks` (App.tsx line 196): a truthy
`task` keeps only days having an activity with that exact task name. -/
def relevantDays (days : List Day) (task : Option String) : List Day :=
  match task with
  | none => days
  | some t =>
    if t.data.isEmpty then days
    else days.filter (fun day => day.activities.any (fun a => a.task == t))

/-- The longest-streak loop of `calculateStreaks` (App.tsx line 202):
`prev` is the previous date, `longest`/`cc` the tracked maximum and the
current consecutive count. -/
def longestWalk (prev : Int) (longest cc : Nat) : List Int → Nat
  | [] => max longest cc
  | x :: xs =>
    if x - prev = 1 then longestWalk x longest (cc + 1) xs
    else longestWalk x (max longest cc) 1 xs

/-- The backward current-streak loop of `calculateStreaks` (App.tsx
line 209), walking the sorted dates from the top (list reversed). -/
def currentWalk (prev : Int) : List Int → Nat
  | [] => 0
  | x :: xs => if prev - x = 1 then 1 + currentWalk x xs else 0

/-- `calculateStreaks` (App.tsx line 194). `todayUTC` is the epoch-day of
the ambient `new Date()` read by the source. -/
def calculateStreaks (todayUTC : Int) (days : List Day) (task : Option String) :
    StreakResult :=
  if days.isEmpty then ⟨0, 0⟩
  else
    let rel := relevantDays days task
    if rel.isEmpty then ⟨0, 0⟩
    else
      let dates := List.insertionSort (α := Int) (· ≤ ·)
        (rel.map (fun day => dateValueD day.date))
      match dates with
      | [] => ⟨0, 0⟩
      | d0 :: rest =>
        let longestStreak := longestWalk d0 1 1 rest
        let activeCurrentStreak :=
          match (d0 :: rest).reverse with
          | [] => 0
          | lastDate :: before =>
            if lastDate = todayUTC ∨ lastDate = todayUTC - 1 then
              1 + currentWalk lastDate before
            else 0
        ⟨activeCurrentStreak, longestStreak⟩

/-- The date values of the qualifying days, `none` if any of them is
malformed (an Invalid Date). -/
def valsOf : List Day → Option (List Int)
  | [] => some []
  | d :: ds =>
    match dateValue d.date, valsOf ds with
    | some v, some vs => some (v :: vs)
    | _, _ => none

/-- Date values of the days selected by the task filter. -/
def qualifyingVals (days : List Day) (task : Option String) : Option (List Int) :=
  valsOf (relevantDays days task)

/-- Maximum of a list of integers (`none` on the empty list): the
"most recent qualifying date". -/
def maxVal? : List Int → Option Int
  | [] => none
  | x :: xs =>
    match maxVal? xs with
    | none => some x
    | some m => some (max x m)

/-- Fuel-based helper for `runLen` (the fuel is always the exact list
length, so the equation `runLen_eq` below holds unconditionally). -/
def runLenAux : Nat → List Int → Int → Nat
  | 0, _, _ => 0
  | fuel + 1, r, y => if y ∈ r then 1 + runLenAux fuel (r.erase y) (y - 1) else 0

/-- Length of the run of consecutive calendar days in `r` ending at `y`
and descending: `y, y-1, y-2, ...` as long as each is present. This is the
specification-side notion of "backward run of consecutive 1-day gaps". -/
def runLen (r : List Int) (y : Int) : Nat := runLenAux r.length r y

/-- Specification-side current streak: anchored at the most recent
qualifying date; alive only if that date is today or yesterday, in which
case it is the descending run length from that date. -/
def specCurrentStreak (todayUTC : Int) (vals : List Int) : Nat :=
  match maxVal? vals with
  | none => 0
  | some m =>
    if m = todayUTC ∨ m = todayUTC - 1 then runLen vals m else 0

/-- Specification-side longest streak: the length of the longest run of
dates at consecutive 1-day gaps, i.e. the largest descending run length
from any qualifying date. -/
def specLongestStreak (vals : List Int) : Nat :=
  (vals.map (fun x => runLen vals x)).foldr max 0

/-! ## Day-collection mutations (App.tsx lines 1081-1124) -/

/-- Descending-date order used by `handleSaveDay`'s
`sort((a, b) => new Date(b.date).getTime() - new Date(a.date).getTime())`
(for well-formed ISO dates `new Date(s)` is the UTC midnight `dateValue`
gives; the theorems below do not depend on this order). -/
def daySortR (a b : Day) : Prop := dateValueD b.date ≤ dateValueD a.date

instance : DecidableRel daySortR := fun a b => Int.decLe _ _

/-- `handleSaveDay` (App.tsx line 1081): replace the record with the same
date if one exists, otherwise append, then sort by date descending. -/
def handleSaveDay (prevDays : List Day) (updatedDay : Day) : List Day :=
  if prevDays.any (fun d => d.date == updatedDay.date) then
    List.insertionSort daySortR
      (prevDays.map (fun d => if d.date == updatedDay.date then updatedDay else d))
  else
    List.insertionSort daySortR (prevDays ++ [updatedDay])

/-- `handleConfirmDelete` (App.tsx line 1124): remove the day with the
given date. -/
def handleConfirmDelete (prevDays : List Day) (dayToDelete : String) : List Day :=
  prevDays.filter (fun day => day.date != dayToDelete)

/-- `handleAddDay` (App.tsx line 1089): `none` when the date already
exists (the request is rejected with a toast and the collection is left
unchanged); otherwise the new `Day`, pre-filled with the weekday-dependent
scrum activity, that is handed to the editing modal (whose save goes
through `handleSaveDay`). `now` is the ambient `Date.now()`. -/
def handleAddDay (now : Int) (days : List Day) (date : String) : Option Day :=
  if days.any (fun d => d.date == date) then none
  else
    let scrumActivity : Option Activity :=
      match dateValue date with
      | none => none
      | some v =>
        let weekday := (v + 4).emod 7
        if 1 ≤ weekday ∧ weekday ≤ 4 then
          some ⟨now, "Office Meeting Scrum", "12:30 PM", some "1:00 PM"⟩
        else if weekday = 5 then
          some ⟨now, "Office Meeting Scrum", "12:00 PM", some "12:30 PM"⟩
        else none
    some { date := date,
           activities := match scrumActivity with | some a => [a] | none => [] }

/-- A qualifying activity used by the concrete streak examples. -/
def exActivity : Activity :=
  { id := 0, task := "Exercise", startTime := "7:00 AM", endTime := none }

/-- The day list of the spec's streak examples: qualifying dates
2025-01-01, 2025-01-02 and 2025-01-04. -/
def exampleDays : List Day :=
  [⟨"2025-01-01", [exActivity]⟩, ⟨"2025-01-02", [exActivity]⟩,
    ⟨"2025-01-04", [exActivity]⟩]

/-! ## Lemmas about `parseTime` -/

theorem parseTimeL_ne_none {l : List Char} (h : l ≠ []) : parseTimeL l ≠ none := by
  unfold parseTimeL
  rw [if_neg (by simpa using h)]
  dsimp only
  split <;> simp

theorem to24_true (h : Nat) : to24 h true = if h < 12 then h + 12 else h := by
  simp [to24]

theorem to24_false (h : Nat) : to24 h false = if h = 12 then 0 else h := by
  simp [to24]

/-- On a canonical 12-hour string the parser returns exactly the 24-hour
minute-of-day given by the AM/PM adjustment. -/
theorem parseTime_mkTime12 (h m : Nat) (pm : Bool) :
    parseTime (some (mkTime12 h m pm)) =
      some (JSDate.valid ((to24 h pm * 60 + m : Nat) : Int)) := by
  have hA := natToDigits_all_digit h
  have hM := pad2_all_digit m
  have hspA : ' ' ∉ natToDigits h := fun hc => absurd (hA _ hc) (by decide)
  have hspM : ' ' ∉ pad2 m := fun hc => absurd (hM _ hc) (by decide)
  have hcolA : ':' ∉ natToDigits h := fun hc => absurd (hA _ hc) (by decide)
  have hcolM : ':' ∉ pad2 m := fun hc => absurd (hM _ hc) (by decide)
  have hsp1 : ' ' ∉ natToDigits h ++ ':' :: pad2 m := by
    intro hc
    rcases List.mem_append.1 hc with hc | hc
    · exact hspA hc
    · rcases List.mem_cons.1 hc with hc | hc
      · exact absurd hc (by decide)
      · exact hspM hc
  have hamp : ' ' ∉ (if pm then ['P', 'M'] else ['A', 'M']) := by
    cases pm <;> decide
  show parseTimeL
      (natToDigits h ++ ':' :: pad2 m ++ ' ' :: (if pm then ['P', 'M'] else ['A', 'M'])) = _
  have hne : natToDigits h ++ ':' :: pad2 m ++ ' ' ::
      (if pm then ['P', 'M'] else ['A', 'M']) ≠ [] := by
    simp
  unfold parseTimeL
  rw [if_neg (by simp)]
  rw [show natToDigits h ++ ':' :: pad2 m ++ ' ' :: (if pm then ['P', 'M'] else ['A', 'M'])
      = (natToDigits h ++ ':' :: pad2 m) ++ ' ' :: (if pm then ['P', 'M'] else ['A', 'M'])
    by simp]
  rw [splitChar_append _ hsp1, splitChar_of_not_mem hamp]
  dsimp only [List.headD, List.get?, List.getD]
  rw [splitChar_append _ hcolA, splitChar_of_not_mem hcolM]
  dsimp only [List.map, List.headD, List.getD, List.get?]
  rw [jsNumber_natToDigits, jsNumber_pad2]
  cases pm with
  | true =>
    rw [if_neg (by decide), if_pos rfl,
      show adjPM (some (h : Int)) =
        (if (h : Int) < 12 then some ((h : Int) + 12) else some (h : Int)) from rfl,
      Option.getD_some]
    by_cases hlt : (h : Int) < 12
    · rw [if_pos hlt]
      have hlt1 : h < 12 := by exact_mod_cast hlt
      show some (JSDate.valid (((h : Int) + 12) * 60 + (m : Int))) = _
      rw [to24_true, if_pos hlt1]
      push_cast
      ring
    · rw [if_neg hlt]
      have hlt1 : ¬h < 12 := fun hn => hlt (by exact_mod_cast hn)
      show some (JSDate.valid ((h : Int) * 60 + (m : Int))) = _
      rw [to24_true, if_neg hlt1]
      push_cast
      ring
  | false =>
    rw [if_pos (show (some (if false = true then ['P', 'M'] else ['A', 'M'])
        = some ['A', 'M']) by decide),
      if_neg (by decide),
      show adjAM (some (h : Int)) =
        (if (h : Int) = 12 then some (0 : Int) else some (h : Int)) from rfl,
      Option.getD_some]
    by_cases he : (h : Int) = 12
    · rw [if_pos he]
      have he1 : h = 12 := by exact_mod_cast he
      show some (JSDate.valid ((0 : Int) * 60 + (m : Int))) = _
      rw [to24_false, if_pos he1]
      push_cast
      ring
    · rw [if_neg he]
      have he1 : ¬h = 12 := fun hn => he (by exact_mod_cast hn)
      show some (JSDate.valid ((h : Int) * 60 + (m : Int))) = _
      rw [to24_false, if_neg he1]
      push_cast
      ring

/-! ## Claims C1, C2: `ParseError` handling -/

/-- C1, counterexample: the spec's claim that `parseTime` returns null on
every malformed string is false in the code. An unrecognised AM/PM token
is silently ignored and yields a normal time value; a missing `':'`
separator or a non-numeric hour yields an Invalid Date object — in no
case is null returned. -/
theorem parseTime_malformed_counterexample :
    parseTime (some "11:50 XX") = some (JSDate.valid 710) ∧
      parseTime (some "1150 PM") = some JSDate.invalid ∧
      parseTime (some "ab:30 AM") = some JSDate.invalid := by
  refine ⟨by decide, by decide, by decide⟩

/-- C1 (amended): `parseTime` returns null only for a null or empty
input string; for every non-empty string — malformed or not — it returns
a `Date` object (an Invalid Date when the hour or minute fails to parse,
an ordinary time value when only the AM/PM token is unrecognised). -/
theorem parseTime_null_only_for_falsy :
    parseTime none = none ∧ parseTime (some "") = none ∧
      ∀ s : String, s.data ≠ [] → parseTime (some s) ≠ none :=
  ⟨rfl, rfl, fun _ hs => parseTimeL_ne_none hs⟩

theorem parseTime_null_only_for_falsy_witness :
    parseTime (some "11:50 XX") ≠ none :=
  parseTime_null_only_for_falsy.2.2 "11:50 XX" (by decide)

/-- C2, counterexample: the spec's claim that `calculateDurationInMinutes`
returns 0 whenever a non-null input fails to parse is false in the code:
a Date object (even an Invalid Date) is truthy, so the `!startDate`
guard never fires for a non-empty string, and the `NaN` difference is
returned as is. -/
theorem calculateDuration_malformed_counterexample :
    calculateDurationInMinutes (some "ab:30 AM") (some "10:00 AM") = none ∧
      (none : Option Int) ≠ some 0 :=
  ⟨by decide, by decide⟩

/-- C2 (amended): `calculateDurationInMinutes` returns 0 when either
input is null or the empty string; but when both inputs are non-empty and
either parses to an Invalid Date (non-numeric or missing hour/minute),
the result is `NaN`, not 0. -/
theorem calculateDuration_zero_only_for_falsy :
    (∀ e, calculateDurationInMinutes none e = some 0) ∧
    (∀ s, calculateDurationInMinutes s none = some 0) ∧
    (∀ s, calculateDurationInMinutes (some "") s = some 0) ∧
    (∀ s, calculateDurationInMinutes s (some "") = some 0) ∧
    (∀ s t : String, s.data ≠ [] → t.data ≠ [] →
      (parseTime (some s) = some JSDate.invalid ∨
        parseTime (some t) = some JSDate.invalid) →
      calculateDurationInMinutes (some s) (some t) = none) := by
  refine ⟨fun e => rfl, ?_, fun s => rfl, ?_, ?_⟩
  · intro s
    simp [calculateDurationInMinutes, falsyS]
  · intro s
    simp [calculateDurationInMinutes, falsyS]
  · intro s t hs ht hinv
    unfold calculateDurationInMinutes
    rw [if_neg (by simp [falsyS, hs, ht])]
    rcases hinv with hinv | hinv
    · rw [hinv]
      obtain ⟨ed, hed⟩ : ∃ e, parseTime (some t) = some e := by
        cases hpt : parseTime (some t) with
        | none => exact absurd hpt (parseTimeL_ne_none ht)
        | some e => exact ⟨e, rfl⟩
      rw [hed]
    · rw [hinv]
      obtain ⟨sd, hsd⟩ : ∃ e, parseTime (some s) = some e := by
        cases hps : parseTime (some s) with
        | none => exact absurd hps (parseTimeL_ne_none hs)
        | some e => exact ⟨e, rfl⟩
      rw [hsd]
      cases sd <;> rfl

theorem calculateDuration_zero_only_for_falsy_witness :
    calculateDurationInMinutes (some "9:xx AM") (some "1:00 PM") = none :=
  calculateDuration_zero_only_for_falsy.2.2.2.2 "9:xx AM" "1:00 PM"
    (by decide) (by decide) (Or.inl (by decide))

/-! ## Claims C5, C6: duration arithmetic -/

/-- C5: for valid clock-time pairs whose raw end-minus-start difference is
negative, the engine adds 1440 minutes (midnight rollover); in particular
the duration from 11:50 PM to 12:10 AM is 20 minutes. -/
theorem calculateDuration_midnight_rollover :
    (∀ h1 m1 b1 h2 m2 b2, Valid12 h1 m1 → Valid12 h2 m2 →
      ((to24 h2 b2 * 60 + m2 : Nat) : Int) - ((to24 h1 b1 * 60 + m1 : Nat) : Int) < 0 →
      calculateDurationInMinutes (some (mkTime12 h1 m1 b1)) (some (mkTime12 h2 m2 b2)) =
        some (((to24 h2 b2 * 60 + m2 : Nat) : Int) -
          ((to24 h1 b1 * 60 + m1 : Nat) : Int) + 1440)) ∧
    calculateDurationInMinutes (some "11:50 PM") (some "12:10 AM") = some 20 := by
  constructor
  · intro h1 m1 b1 h2 m2 b2 _ _ hneg
    unfold calculateDurationInMinutes
    rw [if_neg (by simp [falsyS, mkTime12, natToDigits_ne_nil])]
    rw [parseTime_mkTime12, parseTime_mkTime12]
    dsimp only
    rw [if_pos hneg]
    norm_num
  · decide

theorem calculateDuration_midnight_rollover_witness :
    calculateDurationInMinutes (some (mkTime12 11 50 true)) (some (mkTime12 12 10 false)) =
      some (((to24 12 false * 60 + 10 : Nat) : Int) -
        ((to24 11 true * 60 + 50 : Nat) : Int) + 1440) :=
  calculateDuration_midnight_rollover.1 11 50 true 12 10 false
    ⟨by omega, by omega, by omega⟩ ⟨by omega, by omega, by omega⟩ (by decide)

/-- C6: for every pair of valid clock-time strings the computed duration
is a number in the half-open interval [0, 1440). -/
theorem calculateDuration_range :
    ∀ h1 m1 b1 h2 m2 b2, Valid12 h1 m1 → Valid12 h2 m2 →
      ∃ d : Int,
        calculateDurationInMinutes (some (mkTime12 h1 m1 b1)) (some (mkTime12 h2 m2 b2)) =
          some d ∧ 0 ≤ d ∧ d < 1440 := by
  intro h1 m1 b1 h2 m2 b2 hv1 hv2
  have hb1 : to24 h1 b1 ≤ 23 := by
    obtain ⟨ha, hb, _⟩ := hv1
    unfold to24
    cases b1 <;> simp <;> split <;> omega
  have hb2 : to24 h2 b2 ≤ 23 := by
    obtain ⟨ha, hb, _⟩ := hv2
    unfold to24
    cases b2 <;> simp <;> split <;> omega
  obtain ⟨_, _, hm1⟩ := hv1
  obtain ⟨_, _, hm2⟩ := hv2
  unfold calculateDurationInMinutes
  rw [if_neg (by simp [falsyS, mkTime12, natToDigits_ne_nil])]
  rw [parseTime_mkTime12, parseTime_mkTime12]
  dsimp only
  set a : Int := ((to24 h1 b1 * 60 + m1 : Nat) : Int) with ha
  set b : Int := ((to24 h2 b2 * 60 + m2 : Nat) : Int) with hb
  have hA : 0 ≤ a ∧ a ≤ 1439 := by
    constructor
    · positivity
    · rw [ha]
      have : to24 h1 b1 * 60 + m1 ≤ 1439 := by omega
      exact_mod_cast this
  have hB : 0 ≤ b ∧ b ≤ 1439 := by
    constructor
    · positivity
    · rw [hb]
      have : to24 h2 b2 * 60 + m2 ≤ 1439 := by omega
      exact_mod_cast this
  by_cases hneg : b - a < 0
  · exact ⟨b - a + 24 * 60, by rw [if_pos hneg], by omega, by omega⟩
  · exact ⟨b - a, by rw [if_neg hneg], by omega, by omega⟩

theorem calculateDuration_range_witness :
    ∃ d : Int,
      calculateDurationInMinutes (some (mkTime12 9 0 false)) (some (mkTime12 9 0 false)) =
        some d ∧ 0 ≤ d ∧ d < 1440 :=
  calculateDuration_range 9 0 false 9 0 false ⟨by omega, by omega, by omega⟩
    ⟨by omega, by omega, by omega⟩

/-! ## Claim C7: 12-hour / 24-hour round trip -/

theorem takeWhile_all {α : Type} {p : α → Bool} : ∀ {l : List α},
    (∀ c ∈ l, p c = true) → l.takeWhile p = l
  | [], _ => rfl
  | c :: cs, h => by
    rw [List.takeWhile_cons, if_pos (h c (List.mem_cons_self c cs)),
      takeWhile_all (fun x hx => h x (List.mem_cons_of_mem c hx))]

theorem jsParseInt_pad2 (n : Nat) : jsParseInt (pad2 n) = some n := by
  unfold jsParseInt
  rw [takeWhile_all (pad2_all_digit n)]
  dsimp only
  rw [if_neg (by simpa using pad2_ne_nil n), digitsVal_pad2]

theorem intToChars_natCast (n : Nat) : intToChars (n : Int) = natToDigits n := by
  unfold intToChars
  rw [if_neg (by omega)]
  norm_num

theorem adjPM_roundtrip {h : Nat} (h12le : 12 ≤ h) (hlt : h < 24) :
    adjPM (some ((if h % 12 = 0 then 12 else h % 12 : Nat) : Int)) = some (h : Int) := by
  by_cases hz : h % 12 = 0
  · have h12 : h = 12 := by omega
    subst h12
    decide
  · rw [if_neg hz]
    show (if ((h % 12 : Nat) : Int) < 12 then some (((h % 12 : Nat) : Int) + 12)
      else some ((h % 12 : Nat) : Int)) = some (h : Int)
    rw [if_pos (by omega)]
    simp only [Option.some.injEq]
    omega

theorem adjAM_roundtrip {h : Nat} (hlt : h < 12) :
    adjAM (some ((if h % 12 = 0 then 12 else h % 12 : Nat) : Int)) = some (h : Int) := by
  by_cases hz : h % 12 = 0
  · have h0 : h = 0 := by omega
    subst h0
    decide
  · rw [if_neg hz, Nat.mod_eq_of_lt hlt]
    show (if ((h : Nat) : Int) = 12 then some (0 : Int) else some ((h : Nat) : Int))
      = some (h : Int)
    rw [if_neg (by omega)]

/-- C7: converting a valid zero-padded 24-hour string `"HH:MM"` to the
12-hour form and back yields the original string (hence the original
hour/minute pair). -/
theorem formatTo12Hour_convertTo24Hour_roundtrip :
    ∀ h m : Nat, h < 24 → m < 60 →
      convertTo24Hour (some (formatTo12Hour (mk24 h m))) = mk24 h m := by
  intro h m hh _
  have hPh := pad2_all_digit h
  have hPm := pad2_all_digit m
  have hcolPh : ':' ∉ pad2 h := fun hc => absurd (hPh _ hc) (by decide)
  have hcolPm : ':' ∉ pad2 m := fun hc => absurd (hPm _ hc) (by decide)
  have hspPm : ' ' ∉ pad2 m := fun hc => absurd (hPm _ hc) (by decide)
  have hFd := natToDigits_all_digit (if h % 12 = 0 then 12 else h % 12)
  have hcolF : ':' ∉ natToDigits (if h % 12 = 0 then 12 else h % 12) :=
    fun hc => absurd (hFd _ hc) (by decide)
  have hspF : ' ' ∉ natToDigits (if h % 12 = 0 then 12 else h % 12) :=
    fun hc => absurd (hFd _ hc) (by decide)
  have hsp1 : ' ' ∉ natToDigits (if h % 12 = 0 then 12 else h % 12) ++ ':' :: pad2 m := by
    intro hc
    rcases List.mem_append.1 hc with hc | hc
    · exact hspF hc
    · rcases List.mem_cons.1 hc with hc | hc
      · exact absurd hc (by decide)
      · exact hspPm hc
  have h12 : (formatTo12Hour (mk24 h m)).data =
      natToDigits (if h % 12 = 0 then 12 else h % 12) ++ ':' :: pad2 m ++
        ' ' :: (if 12 ≤ h then ['P', 'M'] else ['A', 'M']) := by
    show formatTo12HourL (pad2 h ++ ':' :: pad2 m) = _
    unfold formatTo12HourL
    rw [splitChar_append _ hcolPh, splitChar_of_not_mem hcolPm]
    dsimp only [List.headD, List.get?, Option.getD]
    rw [jsParseInt_pad2]
  show (if (formatTo12Hour (mk24 h m)).data.isEmpty then ""
    else (⟨convertTo24HourL (formatTo12Hour (mk24 h m)).data⟩ : String)) = mk24 h m
  rw [h12, if_neg (by simp [natToDigits_ne_nil])]
  unfold convertTo24HourL
  by_cases hpm : 12 ≤ h
  · rw [if_pos hpm]
    rw [show natToDigits (if h % 12 = 0 then 12 else h % 12) ++ ':' :: pad2 m ++
        ' ' :: ['P', 'M'] = (natToDigits (if h % 12 = 0 then 12 else h % 12) ++
        ':' :: pad2 m) ++ ' ' :: ['P', 'M'] by simp]
    rw [splitChar_append _ hsp1, splitChar_of_not_mem (by decide : ' ' ∉ ['P', 'M'])]
    dsimp only [List.headD, List.get?, Option.getD]
    rw [splitChar_append _ hcolF, splitChar_of_not_mem hcolPm]
    dsimp only [List.map, List.headD, List.getD, List.get?]
    rw [jsNumber_natToDigits, jsNumber_pad2]
    rw [if_neg (by decide), if_pos rfl, adjPM_roundtrip hpm hh]
    show (⟨jsPadStart2 (numToStr (some (h : Int))) ++ ':' ::
      jsPadStart2 (numToStr (some (m : Int)))⟩ : String) = mk24 h m
    show (⟨jsPadStart2 (intToChars (h : Int)) ++ ':' ::
      jsPadStart2 (intToChars (m : Int))⟩ : String) = mk24 h m
    rw [intToChars_natCast, intToChars_natCast]
    rfl
  · rw [if_neg hpm]
    rw [show natToDigits (if h % 12 = 0 then 12 else h % 12) ++ ':' :: pad2 m ++
        ' ' :: ['A', 'M'] = (natToDigits (if h % 12 = 0 then 12 else h % 12) ++
        ':' :: pad2 m) ++ ' ' :: ['A', 'M'] by simp]
    rw [splitChar_append _ hsp1, splitChar_of_not_mem (by decide : ' ' ∉ ['A', 'M'])]
    dsimp only [List.headD, List.get?, Option.getD]
    rw [splitChar_append _ hcolF, splitChar_of_not_mem hcolPm]
    dsimp only [List.map, List.headD, List.getD, List.get?]
    rw [jsNumber_natToDigits, jsNumber_pad2]
    rw [if_pos rfl, if_neg (by decide), adjAM_roundtrip (by omega)]
    show (⟨jsPadStart2 (intToChars (h : Int)) ++ ':' ::
      jsPadStart2 (intToChars (m : Int))⟩ : String) = mk24 h m
    rw [intToChars_natCast, intToChars_natCast]
    rfl

theorem formatTo12Hour_convertTo24Hour_roundtrip_witness :
    convertTo24Hour (some (formatTo12Hour (mk24 0 5))) = mk24 0 5 :=
  formatTo12Hour_convertTo24Hour_roundtrip 0 5 (by omega) (by omega)

/-! ## Claims C8, C10: `formatDuration` -/

theorem dropWhile_all_false {p : Char → Bool} {l : List Char}
    (h : ∀ c ∈ l, p c = false) : l.dropWhile p = l := by
  cases l with
  | nil => rfl
  | cons c cs =>
    rw [List.dropWhile_cons, if_neg (by simp [h c (List.mem_cons_self c cs)])]

theorem jsTrim_all_nonWS {l : List Char} (h : ∀ c ∈ l, isWS c = false) :
    jsTrim l = l := by
  unfold jsTrim
  rw [dropWhile_all_false h,
    dropWhile_all_false (fun c hc => h c (List.mem_reverse.1 hc)),
    List.reverse_reverse]

theorem jsTrim_append_space {l : List Char} (h : ∀ c ∈ l, isWS c = false) :
    jsTrim (l ++ [' ']) = l := by
  cases l with
  | nil => rfl
  | cons a l1 =>
    unfold jsTrim
    rw [List.cons_append, List.dropWhile_cons,
      if_neg (by simp [h a (List.mem_cons_self a l1)])]
    rw [show (a :: (l1 ++ [' '])) = (a :: l1) ++ [' '] from rfl, List.reverse_append]
    show List.reverse (List.dropWhile isWS (' ' :: (a :: l1).reverse)) = a :: l1
    rw [List.dropWhile_cons, if_pos (by decide)]
    rw [dropWhile_all_false (fun c hc => h c (List.mem_reverse.1 hc)),
      List.reverse_reverse]

theorem jsTrim_mid {l1 l2 : List Char} (h1 : ∀ c ∈ l1, isWS c = false)
    (hn1 : l1 ≠ []) (h2 : ∀ c ∈ l2, isWS c = false) (hn2 : l2 ≠ []) :
    jsTrim (l1 ++ ' ' :: l2) = l1 ++ ' ' :: l2 := by
  obtain ⟨a, l1', rfl⟩ : ∃ a t, l1 = a :: t := by
    cases l1 with
    | nil => exact absurd rfl hn1
    | cons a t => exact ⟨a, t, rfl⟩
  rcases List.eq_nil_or_concat l2 with rfl | ⟨l2', b, rfl⟩
  · exact absurd rfl hn2
  simp only [List.concat_eq_append] at h2 ⊢
  unfold jsTrim
  rw [List.cons_append, List.dropWhile_cons,
    if_neg (by simp [h1 a (List.mem_cons_self a l1')])]
  rw [show (a :: (l1' ++ ' ' :: (l2' ++ [b]))) =
    ((a :: l1' ++ ' ' :: l2') ++ [b]) by simp, List.reverse_append]
  show List.reverse (List.dropWhile isWS (b :: (a :: l1' ++ ' ' :: l2').reverse)) = _
  rw [List.dropWhile_cons, if_neg (by simp [h2 b (by simp)])]
  rw [show List.reverse (b :: (a :: l1' ++ ' ' :: l2').reverse) =
    (a :: l1' ++ ' ' :: l2') ++ [b] by simp]

theorem digits_nonWS (k : Nat) : ∀ c ∈ natToDigits k, isWS c = false :=
  fun c hc => (isDigit_not_sep (natToDigits_all_digit k c hc)).2.2.2

theorem floor_natCast_div60 (n : Nat) : ⌊(n : ℚ) / 60⌋ = ((n / 60 : Nat) : Int) := by
  rw [Int.floor_eq_iff]
  constructor
  · rw [le_div_iff (by norm_num)]
    have : (n / 60) * 60 ≤ n := Nat.div_mul_le_self n 60
    push_cast
    exact_mod_cast this
  · rw [div_lt_iff (by norm_num)]
    have : n < (n / 60 + 1) * 60 := by omega
    push_cast
    exact_mod_cast this

theorem jsMod_natCast60 (n : Nat) : jsMod (n : ℚ) 60 = ((n % 60 : Nat) : ℚ) := by
  unfold jsMod ratTrunc
  rw [if_pos (by positivity), floor_natCast_div60]
  have h : 60 * (n / 60) + n % 60 = n := Nat.div_add_mod n 60
  have h1 : (60 : ℚ) * ((n / 60 : Nat) : ℚ) + ((n % 60 : Nat) : ℚ) = (n : ℚ) := by
    exact_mod_cast h
  have h2 : (((n / 60 : Nat) : Int) : ℚ) = ((n / 60 : Nat) : ℚ) := by
    push_cast
    rfl
  rw [h2]
  linarith

theorem jsRound_natCast (k : Nat) : jsRound ((k : Nat) : ℚ) = ((k : Nat) : Int) := by
  unfold jsRound
  rw [Int.floor_eq_iff]
  constructor
  · push_cast
    linarith
  · push_cast
    linarith

/-- Specification-side `formatDuration` for integral minute counts,
following the spec's wording: `"0m"` for 0, otherwise `"{h}h {m}m"` with
`h = minutes / 60` and `m = minutes mod 60`, each segment omitted when
its value is zero (never both). -/
def specFormatDuration (n : Nat) : String :=
  if n = 0 then "0m"
  else if n / 60 = 0 then ⟨natToDigits (n % 60) ++ ['m']⟩
  else if n % 60 = 0 then ⟨natToDigits (n / 60) ++ ['h']⟩
  else ⟨natToDigits (n / 60) ++ 'h' :: ' ' :: (natToDigits (n % 60) ++ ['m'])⟩

/-- C8: on every non-negative integral input `formatDuration` emits
exactly the spec's format, and the three boundary examples hold. -/
theorem formatDuration_spec :
    (∀ n : Nat, formatDuration (n : ℚ) = specFormatDuration n) ∧
      formatDuration 60 = "1h" ∧ formatDuration 61 = "1h 1m" ∧
      formatDuration 45 = "45m" := by
  have hg : ∀ n : Nat, formatDuration (n : ℚ) = specFormatDuration n := ?_
  case _ =>
    refine ⟨hg, ?_, ?_, ?_⟩
    · rw [show (60 : ℚ) = ((60 : Nat) : ℚ) by norm_num, hg 60]
      decide
    · rw [show (61 : ℚ) = ((61 : Nat) : ℚ) by norm_num, hg 61]
      decide
    · rw [show (45 : ℚ) = ((45 : Nat) : ℚ) by norm_num, hg 45]
      decide
  intro n
  by_cases h0 : n = 0
  · subst h0
    decide
  · have h1 : ¬((n : ℚ) < 1) := by
      have : (1 : ℚ) ≤ (n : ℚ) := by exact_mod_cast (by omega : 1 ≤ n)
      linarith
    unfold formatDuration specFormatDuration
    rw [if_neg h1, if_neg h0, floor_natCast_div60, jsMod_natCast60, jsRound_natCast]
    dsimp only
    by_cases hh : n / 60 = 0
    · rw [if_pos hh, if_neg (show ¬((0 : Int) < ((n / 60 : Nat) : Int)) by omega)]
      rw [if_pos (show (0 : Int) < ((n % 60 : Nat) : Int) by omega)]
      rw [intToChars_natCast, List.nil_append]
      rw [jsTrim_all_nonWS]
      intro c hc
      rcases List.mem_append.1 hc with hc | hc
      · exact digits_nonWS _ c hc
      · rcases List.mem_cons.1 hc with rfl | hc
        · decide
        · simp at hc
    · rw [if_neg hh, if_pos (show (0 : Int) < ((n / 60 : Nat) : Int) by omega)]
      by_cases hm : n % 60 = 0
      · rw [if_pos hm, if_neg (show ¬((0 : Int) < ((n % 60 : Nat) : Int)) by omega)]
        rw [intToChars_natCast]
        rw [show natToDigits (n / 60) ++ ['h', ' '] =
          (natToDigits (n / 60) ++ ['h']) ++ [' '] by simp]
        rw [jsTrim_append_space]
        intro c hc
        rcases List.mem_append.1 hc with hc | hc
        · exact digits_nonWS _ c hc
        · rcases List.mem_cons.1 hc with rfl | hc
          · decide
          · simp at hc
      · rw [if_neg hm, if_pos (show (0 : Int) < ((n % 60 : Nat) : Int) by omega)]
        rw [intToChars_natCast, intToChars_natCast]
        rw [show natToDigits (n / 60) ++ ['h', ' '] ++ natToDigits (n % 60) ++ ['m'] =
          (natToDigits (n / 60) ++ ['h']) ++ ' ' :: (natToDigits (n % 60) ++ ['m'])
          by simp]
        rw [jsTrim_mid]
        · show (⟨(natToDigits (n / 60) ++ ['h']) ++ ' ' ::
            (natToDigits (n % 60) ++ ['m'])⟩ : String) = _
          congr 1
          simp
        · intro c hc
          rcases List.mem_append.1 hc with hc | hc
          · exact digits_nonWS _ c hc
          · rcases List.mem_cons.1 hc with rfl | hc
            · decide
            · simp at hc
        · simp
        · intro c hc
          rcases List.mem_append.1 hc with hc | hc
          · exact digits_nonWS _ c hc
          · rcases List.mem_cons.1 hc with rfl | hc
            · decide
            · simp at hc
        · simp

/-- C10: every input strictly below one minute — including fractional
positive values such as 0.5 — prints as `"0m"`; a small positive duration
is indistinguishable from an exactly-zero one. -/
theorem formatDuration_subminute :
    ∀ q : ℚ, q < 1 → formatDuration q = "0m" := by
  intro q h
  unfold formatDuration
  rw [if_pos h]

theorem formatDuration_subminute_witness : formatDuration (1 / 2 : ℚ) = "0m" :=
  formatDuration_subminute (1 / 2) (by norm_num)

/-! ## Claim C9: date uniqueness across day-collection mutations -/

theorem handleSaveDay_nodup (days : List Day) (u : Day)
    (h : (days.map (fun d => d.date)).Nodup) :
    ((handleSaveDay days u).map (fun d => d.date)).Nodup := by
  unfold handleSaveDay
  split
  · rename_i hany
    apply ((List.perm_insertionSort daySortR _).map (fun d => d.date)).nodup_iff.2
    rw [List.map_map]
    have heq : days.map ((fun d => d.date) ∘ fun d => if d.date == u.date then u else d) =
        days.map (fun d => d.date) := by
      apply List.map_congr_left
      intro d _
      by_cases hdd : d.date == u.date
      · simp only [Function.comp_apply, if_pos hdd]
        exact (eq_of_beq hdd).symm
      · simp only [Function.comp_apply, if_neg hdd]
    rw [heq]
    exact h
  · rename_i hany
    apply ((List.perm_insertionSort daySortR _).map (fun d => d.date)).nodup_iff.2
    rw [List.map_append]
    have hnotin : u.date ∉ days.map (fun d => d.date) := by
      intro hmem
      rcases List.mem_map.1 hmem with ⟨d, hd, hdd⟩
      exact hany (List.any_eq_true.2 ⟨d, hd, by simp [hdd]⟩)
    simp only [List.map_cons, List.map_nil, List.nodup_append]
    exact ⟨h, List.nodup_singleton _, by simpa using hnotin⟩

/-- C9: all three mutations of the Day collection preserve the invariant
that no two Day records share a date. `handleSaveDay` replaces in place
(or appends a fresh date); `handleConfirmDelete` filters; `handleAddDay`
rejects an existing date outright, and the day it hands to the modal is
committed through `handleSaveDay`. -/
theorem dayCollection_dates_nodup :
    ∀ (days : List Day) (u : Day) (target date : String) (now : Int),
      (days.map (fun d => d.date)).Nodup →
      ((handleSaveDay days u).map (fun d => d.date)).Nodup ∧
      ((handleConfirmDelete days target).map (fun d => d.date)).Nodup ∧
      ((∃ d ∈ days, d.date = date) → handleAddDay now days date = none) ∧
      (∀ nd, handleAddDay now days date = some nd →
        ((handleSaveDay days nd).map (fun d => d.date)).Nodup) := by
  intro days u target date now h
  refine ⟨handleSaveDay_nodup days u h, ?_, ?_, fun nd _ => handleSaveDay_nodup days nd h⟩
  · exact ((List.filter_sublist days).map (fun d => d.date)).nodup h
  · intro ⟨d, hd, hdd⟩
    unfold handleAddDay
    rw [if_pos (List.any_eq_true.2 ⟨d, hd, by simp [hdd]⟩)]

theorem dayCollection_dates_nodup_witness :
    ((handleSaveDay exampleDays ⟨"2025-01-07", []⟩).map (fun d => d.date)).Nodup :=
  (dayCollection_dates_nodup exampleDays ⟨"2025-01-07", []⟩ "2025-01-01" "2025-01-02" 0
    (by decide)).1

/-! ## Claims C3, C4: streak computation -/

/-- Unfolding equation for `runLen` (the internal fuel is always exactly
the list length). -/
theorem runLen_eq (r : List Int) (y : Int) :
    runLen r y = if y ∈ r then 1 + runLen (r.erase y) (y - 1) else 0 := by
  match r with
  | [] => simp [runLen, runLenAux]
  | a :: as =>
    show runLenAux (as.length + 1) (a :: as) y = _
    unfold runLenAux
    split
    · rename_i hy
      have hlen : ((a :: as).erase y).length = as.length := by
        rw [List.length_erase_of_mem hy]
        simp
      rw [show runLen ((a :: as).erase y) (y - 1)
        = runLenAux ((a :: as).erase y).length ((a :: as).erase y) (y - 1) from rfl, hlen]
    · rfl

theorem runLen_perm {r r' : List Int} (p : List.Perm r r') (y : Int) :
    runLen r y = runLen r' y := by
  have main : ∀ n (r r' : List Int), r.length = n → List.Perm r r' → ∀ y,
      runLen r y = runLen r' y := by
    intro n
    induction n using Nat.strong_induction_on with
    | _ n ih =>
      intro r r' hl p y
      rw [runLen_eq r y, runLen_eq r' y]
      by_cases hy : y ∈ r
      · rw [if_pos hy, if_pos (p.mem_iff.1 hy)]
        have hlen : (r.erase y).length < n := by
          rw [List.length_erase_of_mem hy]
          have : r ≠ [] := fun h => by simp [h] at hy
          have : 0 < r.length := List.length_pos.2 this
          omega
        rw [ih (r.erase y).length hlen (r.erase y) (r'.erase y) rfl (p.erase y) (y - 1)]
      · rw [if_neg hy, if_neg (fun h => hy (p.mem_iff.2 h))]
  exact main r.length r r' rfl p y

theorem runLen_erase_gt {l : List Int} {a y : Int} (hya : y < a) :
    runLen (l.erase a) y = runLen l y := by
  have main : ∀ n (l : List Int) (a y : Int), l.length = n → y < a →
      runLen (l.erase a) y = runLen l y := by
    intro n
    induction n using Nat.strong_induction_on with
    | _ n ih =>
      intro l a y hl hya
      rw [runLen_eq (l.erase a) y, runLen_eq l y]
      have hmem : y ∈ l.erase a ↔ y ∈ l := List.mem_erase_of_ne (by omega)
      by_cases hy : y ∈ l
      · rw [if_pos (hmem.2 hy), if_pos hy, List.erase_comm]
        have hlen : (l.erase y).length < n := by
          rw [List.length_erase_of_mem hy]
          have : l ≠ [] := fun h => by simp [h] at hy
          have : 0 < l.length := List.length_pos.2 this
          omega
        rw [ih (l.erase y).length hlen (l.erase y) a (y - 1) rfl (by omega)]
      · rw [if_neg (fun h => hy (hmem.1 h)), if_neg hy]
  exact main l.length l a y rfl hya

/-- The code's backward current-streak walk over a strictly descending
list computes exactly the descending-run length from the top element. -/
theorem currentWalk_runLen : ∀ (before : List Int) (lastDate : Int),
    (lastDate :: before).Pairwise (fun a b => b < a) →
    runLen (lastDate :: before) lastDate = 1 + currentWalk lastDate before := by
  intro before
  induction before with
  | nil =>
    intro lastDate _
    rw [runLen_eq, if_pos (List.mem_singleton_self lastDate), List.erase_cons_head,
      runLen_eq]
    simp [currentWalk]
  | cons x xs ih =>
    intro lastDate hp
    have hlx : x < lastDate :=
      (List.pairwise_cons.1 hp).1 x (List.mem_cons_self x xs)
    have hp1 : (x :: xs).Pairwise (fun a b => b < a) := (List.pairwise_cons.1 hp).2
    rw [runLen_eq, if_pos (List.mem_cons_self lastDate (x :: xs)), List.erase_cons_head]
    show 1 + runLen (x :: xs) (lastDate - 1) =
      1 + (if lastDate - x = 1 then 1 + currentWalk x xs else 0)
    by_cases hgap : lastDate - x = 1
    · rw [if_pos hgap, show lastDate - 1 = x by omega, ih x hp1]
    · rw [if_neg hgap]
      have hnot : lastDate - 1 ∉ x :: xs := by
        intro hmem
        rcases List.mem_cons.1 hmem with heq | hmem
        · omega
        · have := (List.pairwise_cons.1 hp1).1 _ hmem
          omega
      rw [runLen_eq, if_neg hnot]

/-- The running `(longest, current)` maximum tracking of the code's
longest-streak loop, with the final `max` fused in. -/
def walkMax (prev : Int) (cc : Nat) : List Int → Nat
  | [] => cc
  | x :: xs => if x - prev = 1 then walkMax x (cc + 1) xs else max cc (walkMax x 1 xs)

theorem longestWalk_eq_walkMax : ∀ (xs : List Int) (prev : Int) (lg cc : Nat),
    longestWalk prev lg cc xs = max lg (walkMax prev cc xs) := by
  intro xs
  induction xs with
  | nil => intro prev lg cc; rfl
  | cons x xs ih =>
    intro prev lg cc
    show (if x - prev = 1 then longestWalk x lg (cc + 1) xs
      else longestWalk x (max lg cc) 1 xs) = max lg (walkMax prev cc (x :: xs))
    unfold walkMax
    by_cases hgap : x - prev = 1
    · rw [if_pos hgap, if_pos hgap, ih]
    · rw [if_neg hgap, if_neg hgap, ih, Nat.max_assoc]

theorem maxVal?_none : ∀ {l : List Int}, maxVal? l = none → l = []
  | [], _ => rfl
  | x :: xs, h => by
    unfold maxVal? at h
    split at h <;> simp at h

theorem maxVal?_mem : ∀ {l : List Int} {m : Int}, maxVal? l = some m → m ∈ l
  | [], m, h => by simp [maxVal?] at h
  | x :: xs, m, h => by
    unfold maxVal? at h
    split at h
    · simp only [Option.some.injEq] at h
      subst h
      exact List.mem_cons_self x xs
    · rename_i m' hm'
      simp only [Option.some.injEq] at h
      subst h
      rcases max_choice x m' with hc | hc
      · rw [hc]; exact List.mem_cons_self x xs
      · rw [hc]; exact List.mem_cons_of_mem x (maxVal?_mem hm')

theorem maxVal?_le : ∀ {l : List Int} {m : Int}, maxVal? l = some m →
    ∀ x ∈ l, x ≤ m
  | [], m, h => by simp [maxVal?] at h
  | x :: xs, m, h => by
    unfold maxVal? at h
    split at h
    · rename_i hnone
      have : xs = [] := maxVal?_none hnone
      subst this
      simp only [Option.some.injEq] at h
      subst h
      intro z hz
      simp only [List.mem_singleton] at hz
      omega
    · rename_i m' hm'
      simp only [Option.some.injEq] at h
      subst h
      intro z hz
      rcases List.mem_cons.1 hz with rfl | hz
      · exact le_max_left _ _
      · exact le_trans (maxVal?_le hm' z hz) (le_max_right _ _)

theorem maxVal?_eq {l : List Int} {M : Int} (hmem : M ∈ l)
    (hub : ∀ x ∈ l, x ≤ M) : maxVal? l = some M := by
  cases h : maxVal? l with
  | none =>
    rw [maxVal?_none h] at hmem
    simp at hmem
  | some m =>
    have h1 : m ≤ M := hub m (maxVal?_mem h)
    have h2 : M ≤ m := maxVal?_le h M hmem
    rw [show M = m by omega]

theorem valsOf_map : ∀ {days : List Day} {vs : List Int}, valsOf days = some vs →
    days.map (fun d => dateValueD d.date) = vs
  | [], vs, h => by
    simp only [valsOf, Option.some.injEq] at h
    simp [← h]
  | d :: ds, vs, h => by
    unfold valsOf at h
    cases hd : dateValue d.date with
    | none => rw [hd] at h; simp at h
    | some v =>
      rw [hd] at h
      cases ht : valsOf ds with
      | none => rw [ht] at h; simp at h
      | some vs' =>
        rw [ht] at h
        simp only [Option.some.injEq] at h
        subst h
        simp only [List.map_cons, valsOf_map ht]
        congr 1
        simp [dateValueD, hd]

theorem foldr_max_perm {l l' : List Nat} (p : List.Perm l l') (n : Nat) :
    l.foldr max n = l'.foldr max n := by
  induction p with
  | nil => rfl
  | cons a _ ih => simp only [List.foldr_cons, ih]
  | swap a b l => simp only [List.foldr_cons]; rw [Nat.max_left_comm]
  | trans _ _ ih1 ih2 => rw [ih1, ih2]

/-- The code's fused longest-streak walk over a strictly increasing list
equals the maximum descending-run length over all its elements. -/
theorem walkMax_spec : ∀ (xs : List Int) (prev : Int) (pre : List Int) (L : List Int),
    L.Pairwise (· < ·) → L = pre ++ prev :: xs →
    walkMax prev (runLen L prev) xs =
      ((prev :: xs).map (fun y => runLen L y)).foldr max 0 := by
  intro xs
  induction xs with
  | nil =>
    intro prev pre L _ _
    show runLen L prev = max (runLen L prev) 0
    omega
  | cons x xs ih =>
    intro prev pre L hP hL
    have hsuffix : (prev :: x :: xs).Pairwise (· < ·) := by
      subst hL
      exact (List.pairwise_append.1 hP).2.1
    have hadj : prev < x :=
      (List.pairwise_cons.1 hsuffix).1 x (List.mem_cons_self x xs)
    have hL1 : L = (pre ++ [prev]) ++ x :: xs := by subst hL; simp
    have hxmem : x ∈ L := by
      subst hL
      simp
    unfold walkMax
    by_cases hgap : x - prev = 1
    · rw [if_pos hgap]
      have hxrun : runLen L x = 1 + runLen L prev := by
        rw [runLen_eq, if_pos hxmem, show x - 1 = prev by omega,
          runLen_erase_gt (by omega)]
      have hrec := ih x (pre ++ [prev]) L hP hL1
      rw [show runLen L prev + 1 = runLen L x by omega, hrec]
      have hhead : runLen L x ≤ ((x :: xs).map (fun y => runLen L y)).foldr max 0 := by
        simp only [List.map_cons, List.foldr_cons]
        exact le_max_left _ _
      simp only [List.map_cons, List.foldr_cons] at hhead ⊢
      omega
    · rw [if_neg hgap]
      have hx1 : runLen L x = 1 := by
        rw [runLen_eq, if_pos hxmem]
        have hnot : x - 1 ∉ L := by
          intro hmem
          subst hL
          rcases List.mem_append.1 hmem with hm | hm
          · have := (List.pairwise_append.1 hP).2.2 _ hm prev
              (List.mem_cons_self prev (x :: xs))
            omega
          · rcases List.mem_cons.1 hm with heq | hm
            · omega
            · rcases List.mem_cons.1 hm with heq | hm
              · omega
              · have := (List.pairwise_cons.1 ((List.pairwise_cons.1 hsuffix).2)).1 _ hm
                omega
        have : x - 1 ∉ L.erase x := fun hm => hnot (List.mem_of_mem_erase hm)
        rw [runLen_eq, if_neg this]
      have hrec := ih x (pre ++ [prev]) L hP hL1
      rw [show (1 : Nat) = runLen L x from hx1.symm, hrec]
      simp only [List.map_cons, List.foldr_cons]

theorem specLongestStreak_pos {vals : List Int} (h : vals ≠ []) :
    1 ≤ specLongestStreak vals := by
  obtain ⟨x, xs, rfl⟩ : ∃ x xs, vals = x :: xs := by
    cases vals with
    | nil => exact absurd rfl h
    | cons x xs => exact ⟨x, xs, rfl⟩
  unfold specLongestStreak
  simp only [List.map_cons, List.foldr_cons]
  have : 1 ≤ runLen (x :: xs) x := by
    rw [runLen_eq, if_pos (List.mem_cons_self x xs)]
    omega
  omega

/-- The streak engine computes exactly the specification values: the
current streak is the descending run from the most recent qualifying date
when that date is today or yesterday (0 otherwise), and the longest
streak is the longest run of dates at consecutive 1-day gaps. Hypotheses:
every qualifying day's date is well-formed (`qualifyingVals` is `some`)
and the qualifying date values are pairwise distinct (guaranteed by the
date-uniqueness invariant of the Day collection). -/
theorem calculateStreaks_spec_general :
    ∀ (todayUTC : Int) (days : List Day) (task : Option String) (vals : List Int),
      qualifyingVals days task = some vals → vals.Nodup →
      calculateStreaks todayUTC days task =
        ⟨specCurrentStreak todayUTC vals, specLongestStreak vals⟩ := by
  intro todayUTC days task vals hq hnd
  have hmapv : (relevantDays days task).map (fun d => dateValueD d.date) = vals :=
    valsOf_map hq
  unfold calculateStreaks
  by_cases hde : days.isEmpty
  · rw [if_pos hde]
    have hdnil : days = [] := by simpa using hde
    subst hdnil
    have hrel : relevantDays [] task = [] := by
      rcases task with _ | t
      · rfl
      · simp only [relevantDays]
        split <;> simp
    rw [hrel] at hmapv
    simp only [List.map_nil] at hmapv
    rw [← hmapv]
    rfl
  · rw [if_neg hde]
    by_cases hre : (relevantDays days task).isEmpty
    · rw [if_pos hre]
      have hrnil : relevantDays days task = [] := by simpa using hre
      rw [hrnil] at hmapv
      simp only [List.map_nil] at hmapv
      rw [← hmapv]
      rfl
    · rw [if_neg hre]
      rw [hmapv]
      cases hS : List.insertionSort (α := Int) (· ≤ ·) vals with
      | nil =>
        exfalso
        have hperm := List.perm_insertionSort (α := Int) (· ≤ ·) vals
        rw [hS] at hperm
        have hvnil : vals = [] := hperm.symm.eq_nil
        rw [hvnil] at hmapv
        have hrnil : relevantDays days task = [] := by
          rcases hr : relevantDays days task with _ | ⟨d, ds⟩
          · rfl
          · rw [hr] at hmapv
            simp at hmapv
        rw [hrnil] at hre
        simp at hre
      | cons d0 rest =>
        have hperm : List.Perm (d0 :: rest) vals := by
          rw [← hS]
          exact List.perm_insertionSort _ vals
        have hsorted : (d0 :: rest).Sorted (· ≤ ·) := by
          rw [← hS]
          exact List.sorted_insertionSort _ vals
        have hnodupS : (d0 :: rest).Nodup := hperm.nodup_iff.2 hnd
        have hlt : (d0 :: rest).Sorted (· < ·) := hsorted.lt_of_le hnodupS
        dsimp only
        cases hrev : (d0 :: rest).reverse with
        | nil => simp at hrev
        | cons lastDate before =>
          have hdesc : (lastDate :: before).Pairwise (fun a b => b < a) := by
            rw [← hrev]
            exact List.pairwise_reverse.2 hlt
          have hpv : List.Perm vals (lastDate :: before) := by
            rw [← hrev]
            exact (hperm.symm).trans (List.reverse_perm (d0 :: rest)).symm
          have hmax : maxVal? vals = some lastDate := by
            apply maxVal?_eq
            · exact hpv.mem_iff.2 (List.mem_cons_self lastDate before)
            · intro x hx
              rcases List.mem_cons.1 (hpv.mem_iff.1 hx) with rfl | hx1
              · exact le_refl x
              · exact le_of_lt ((List.pairwise_cons.1 hdesc).1 x hx1)
          have hcur : runLen vals lastDate = 1 + currentWalk lastDate before := by
            rw [runLen_perm hpv lastDate, currentWalk_runLen before lastDate hdesc]
          have hd0run : runLen (d0 :: rest) d0 = 1 := by
            rw [runLen_eq, if_pos (List.mem_cons_self d0 rest), List.erase_cons_head]
            have hnot : d0 - 1 ∉ rest := by
              intro hm
              have := (List.pairwise_cons.1 hlt).1 _ hm
              omega
            rw [runLen_eq, if_neg hnot]
          have hlong : longestWalk d0 1 1 rest = specLongestStreak vals := by
            rw [longestWalk_eq_walkMax, show (1 : Nat) = runLen (d0 :: rest) d0
              from hd0run.symm, walkMax_spec rest d0 [] (d0 :: rest) hlt rfl]
            have hmapeq : (d0 :: rest).map (fun y => runLen (d0 :: rest) y) =
                (d0 :: rest).map (fun y => runLen vals y) :=
              List.map_congr_left (fun y _ => runLen_perm hperm y)
            rw [hmapeq, foldr_max_perm (hperm.map (fun y => runLen vals y)) 0]
            have h1 : 1 ≤ specLongestStreak vals :=
              specLongestStreak_pos (fun hv => by simp [hv] at hperm)
            unfold specLongestStreak
            unfold specLongestStreak at h1
            omega
          rw [hlong]
          unfold specCurrentStreak
          rw [hmax]
          dsimp only
          by_cases hc : lastDate = todayUTC ∨ lastDate = todayUTC - 1
          · rw [if_pos hc, if_pos hc, hcur]
          · rw [if_neg hc, if_neg hc]

/-- C3: the current streak is 0 whenever the most recent qualifying date
is neither today nor yesterday (UTC), regardless of any historical run;
when it is today or yesterday, the current streak is the length of the
backward run of consecutive 1-day gaps ending at that date
(`specCurrentStreak`). In particular, for qualifying dates 2025-01-01,
2025-01-02, 2025-01-04 and today = 2025-01-06 the current streak is 0. -/
theorem calculateStreaks_currentStreak_spec :
    (∀ (todayUTC : Int) (days : List Day) (task : Option String) (vals : List Int),
        qualifyingVals days task = some vals → vals.Nodup →
        (calculateStreaks todayUTC days task).currentStreak =
          specCurrentStreak todayUTC vals) ∧
      (calculateStreaks (daysFromCivil 2025 1 6) exampleDays none).currentStreak = 0 := by
  constructor
  · intro todayUTC days task vals hq hnd
    rw [calculateStreaks_spec_general todayUTC days task vals hq hnd]
  · decide

theorem calculateStreaks_currentStreak_spec_witness :
    (calculateStreaks (daysFromCivil 2025 1 4) exampleDays none).currentStreak =
      specCurrentStreak (daysFromCivil 2025 1 4) [20089, 20090, 20092] :=
  calculateStreaks_currentStreak_spec.1 (daysFromCivil 2025 1 4) exampleDays none
    [20089, 20090, 20092] (by decide) (by decide)

/-- C4: the longest streak is the length of the longest run of qualifying
dates at consecutive 1-day gaps (`specLongestStreak`), at least 1 when a
qualifying date exists and 0 when none does. In particular, for
qualifying dates 2025-01-01, 2025-01-02, 2025-01-04 and today =
2025-01-04 the result is current streak 1 and longest streak 2. -/
theorem calculateStreaks_longestStreak_spec :
    (∀ (todayUTC : Int) (days : List Day) (task : Option String) (vals : List Int),
        qualifyingVals days task = some vals → vals.Nodup →
        (calculateStreaks todayUTC days task).longestStreak = specLongestStreak vals ∧
        (vals ≠ [] → 1 ≤ (calculateStreaks todayUTC days task).longestStreak) ∧
        (vals = [] → (calculateStreaks todayUTC days task).longestStreak = 0)) ∧
      calculateStreaks (daysFromCivil 2025 1 4) exampleDays none = ⟨1, 2⟩ := by
  constructor
  · intro todayUTC days task vals hq hnd
    rw [calculateStreaks_spec_general todayUTC days task vals hq hnd]
    refine ⟨rfl, ?_, ?_⟩
    · intro hne
      exact specLongestStreak_pos hne
    · intro hnil
      subst hnil
      rfl
  · decide

theorem calculateStreaks_longestStreak_spec_witness :
    (calculateStreaks (daysFromCivil 2025 1 6) exampleDays none).longestStreak =
      specLongestStreak [20089, 20090, 20092] :=
  (calculateStreaks_longestStreak_spec.1 (daysFromCivil 2025 1 6) exampleDays none
    [20089, 20090, 20092] (by decide) (by decide)).1
